import Mathlib

/-!
Shallow embedding of the conversation/session core of `chat.py`
(an interactive Groq chat client) together with proofs about it.

The embedding covers:
* `extract_think_content` (the response parser built on the regex
  `<think>(.*?)</think>` with `re.DOTALL`: `re.findall` collects the inner
  groups and `re.sub` deletes the matched spans, then `.strip()`),
* `create_reasoning_prompt` (the prompt template),
* `chat` (the `GroqChat.chat` method: append the user turn, call the
  remote completion, on failure return the apology sentinel, on success
  append the raw assistant reply and truncate the history to the last 10),
* the command dispatch of `main` (in particular the `/clear` branch,
  which only clears the terminal and re-prints the welcome banner).

Python strings are modelled as `String`/`List Char`; `str.strip()` is
modelled by `trimChars` (dropping leading and trailing whitespace).  The
remote completion call is modelled as an explicit `Except` argument: the
code catches every exception from the client uniformly, so the outcome of
the call is either a reply text or an error.
-/

/-- Predicate holding when `pat` is a prefix of `s` (character by
character).  Used to locate literal tag markers. -/
def matchesAt : List Char → List Char → Bool
  | [], _ => true
  | _ :: _, [] => false
  | p :: ps, c :: cs => p == c && matchesAt ps cs

/-- Predicate holding when some suffix of `s` starts with `pat`, i.e.
`pat` occurs as a contiguous substring of `s`. -/
def containsTag (pat : List Char) : List Char → Bool
  | [] => matchesAt pat []
  | c :: cs => matchesAt pat (c :: cs) || containsTag pat cs

/-- Split `s` at the first occurrence of `pat`: returns
`some (pre, post)` with `s = pre ++ pat ++ post` and no earlier
occurrence, or `none` when `pat` does not occur in `s`. -/
def splitFirst (pat : List Char) : List Char → Option (List Char × List Char)
  | [] => if matchesAt pat [] then some ([], []) else none
  | c :: cs =>
    if matchesAt pat (c :: cs) then some ([], (c :: cs).drop pat.length)
    else
      match splitFirst pat cs with
      | some (pre, post) => some (c :: pre, post)
      | none => none

/-- Drop leading whitespace characters (one side of Python `str.strip()`). -/
def dropLeadingWs : List Char → List Char
  | [] => []
  | c :: cs => if c.isWhitespace then dropLeadingWs cs else c :: cs

/-- Model of Python `str.strip()`: drop leading whitespace, then drop
trailing whitespace (via reversal). -/
def trimChars (s : List Char) : List Char :=
  ((dropLeadingWs s).reverse |> dropLeadingWs).reverse

/-- The opening reasoning marker `<think>` of the regex. -/
def openTag : List Char := "<think>".toList

/-- The closing reasoning marker of the regex. -/
def closeTag : List Char := "</think>".toList

/-- One pass of the regex engine for the non-greedy pattern
`<think>(.*?)</think>` (DOTALL): repeatedly find the first opening
marker, then the first closing marker after it; record the inner span and
continue after the closing marker.  `fuel` bounds the recursion; every
match consumes at least the two markers, so `fuel = s.length` is always
enough for the scan to find every match. -/
def scanThinkFuel : Nat → List Char → List String × List Char
  | 0, s => ([], s)
  | Nat.succ fuel, s =>
    match splitFirst openTag s with
    | none => ([], s)
    | some (pre, rest) =>
      match splitFirst closeTag rest with
      | none => ([], s)
      | some (inner, post) =>
        let r := scanThinkFuel fuel post
        (String.mk inner :: r.1, pre ++ r.2)

/-- Embedding of `GroqChat.extract_think_content`: `re.findall` of the inner groups of
`<think>(.*?)</think>` (DOTALL) paired with `re.sub` of the matched spans
followed by `.strip()`. -/
def extract_think_content (text : String) : List String × String :=
  let r := scanThinkFuel text.toList.length text.toList
  (r.1, String.mk (trimChars r.2))

/-- A chat message: a Python dict with a role key and a content key. -/
structure Message where
  role : String
  content : String
deriving DecidableEq, Repr

/-- Embedding of `GroqChat.create_reasoning_prompt`: wraps the user input in the fixed
step-by-step instruction template. -/
def create_reasoning_prompt (user_input : String) : String :=
  user_input ++
    "\n\nPlease approach this step-by-step:\n1. First, analyze the question carefully\n2. Break down your thinking process using <think> tags\n3. Validate your reasoning\n4. Provide a clear, final response"

/-- The fixed apology text returned when the remote call fails. -/
def apology : String := "I apologize, but I encountered an error. Please try again."

/-- Embedding of `GroqChat.chat`.  The remote completion call is an explicit argument:
`Except.ok reply` is a successful (non-streaming, the configured mode)
completion whose text is `reply`; `Except.error e` is any exception
raised by the client, which the method catches uniformly.  Returns the
new `conversation_history` together with the `(thinking, response)` pair
handed to the caller. -/
def chat (conversation_history : List Message) (user_input : String)
    (remote : Except String String) :
    List Message × (List String × String) :=
  let formatted_input := create_reasoning_prompt user_input
  let hist1 := conversation_history ++ [{ role := "user", content := formatted_input }]
  match remote with
  | Except.error _ => (hist1, ([], apology))
  | Except.ok full_response =>
    let parsed := extract_think_content full_response
    let hist2 := hist1 ++ [{ role := "assistant", content := full_response }]
    let hist3 := if hist2.length > 10 then hist2.drop (hist2.length - 10) else hist2
    (hist3, parsed)

/-- ASCII lowering of one character, modelling Python `str.lower()` on the
command words involved (all ASCII). -/
def lowerChar (c : Char) : Char :=
  if 65 ≤ c.toNat ∧ c.toNat ≤ 90 then Char.ofNat (c.toNat + 32) else c

/-- State of the interactive loop in `main`: the session it owns plus the
terminal display (the latter abstracted to a list of rendered lines, since
styling is presentation glue). -/
structure AppState where
  conversation_history : List Message
  screen : List String
deriving DecidableEq, Repr

/-- The welcome banner printed by `display_welcome` (display text
abstracted to one line; its content is never inspected). -/
def welcome_lines : List String := ["Welcome to GroqChat"]

/-- The help panel printed by the `/help` branch (abstracted). -/
def help_lines : List String := ["Available Commands: /clear /help quit"]

/-- One iteration of the `while True` loop of `main`: the prompt input is
stripped, then dispatched on its lowercase form against `quit`, `/clear`
and `/help`; otherwise the text is sent through `GroqChat.chat` and the
parsed thinking and response are rendered.  `console.clear()` replaces the
screen contents; `display_welcome()` prints the banner. -/
def main_loop_step (st : AppState) (raw_input : String)
    (remote : Except String String) : AppState :=
  let user_input := String.mk (trimChars raw_input.toList)
  let lowered := user_input.toList.map lowerChar
  if lowered = "quit".toList then
    st
  else if lowered = "/clear".toList then
    { st with screen := welcome_lines }
  else if lowered = "/help".toList then
    { st with screen := st.screen ++ help_lines }
  else
    let r := chat st.conversation_history user_input remote
    { conversation_history := r.1, screen := st.screen ++ r.2.1 ++ [r.2.2] }

/-- Concatenation of a list of character lists. -/
def listJoin : List (List Char) → List Char
  | [] => []
  | p :: ps => p ++ listJoin ps

/-- Interleaving of unmatched separator segments with
tagged spans: `sep0 ++ <think> ++ inner1 ++ </think> ++ sep1 ++ ...`.
Used to state that the parsed thinking elements are exactly the inner
contents of the matched spans, in document order. -/
def spanJoin : List (List Char) → List (List Char) → List Char
  | [], _ => []
  | p :: _, [] => p
  | p :: ps, i :: is => p ++ openTag ++ i ++ closeTag ++ spanJoin ps is

example : extract_think_content "<think>a</think>mid<think>b</think>end" =
    (["a", "b"], "midend") := by decide

example : extract_think_content "Hello world" = ([], "Hello world") := by decide

example : extract_think_content "  x  " = ([], "x") := by decide

example : extract_think_content "<think> a </think>x" = ([" a "], "x") := by decide

example : extract_think_content "<think>unclosed" = ([], "<think>unclosed") := by decide

example : extract_think_content "<think></think>t" = ([""], "t") := by decide

/-! ### Basic lemmas about marker matching and splitting -/

theorem matchesAt_nil_pat (s : List Char) : matchesAt [] s = true := by
  cases s <;> rfl

theorem matchesAt_nil (pat : List Char) (h : matchesAt pat [] = true) : pat = [] := by
  cases pat with
  | nil => rfl
  | cons p ps => simp [matchesAt] at h

theorem matchesAt_append (pat : List Char) :
    ∀ l t : List Char, matchesAt pat l = true → matchesAt pat (l ++ t) = true := by
  induction pat with
  | nil => intro l t _; exact matchesAt_nil_pat _
  | cons p ps ih =>
    intro l t h
    cases l with
    | nil => simp [matchesAt] at h
    | cons c cs =>
      simp only [matchesAt, Bool.and_eq_true, beq_iff_eq] at h
      simp only [List.cons_append, matchesAt, Bool.and_eq_true, beq_iff_eq]
      exact ⟨h.1, ih cs t h.2⟩

theorem matchesAt_take_drop (pat : List Char) :
    ∀ s : List Char, matchesAt pat s = true → s = pat ++ s.drop pat.length := by
  induction pat with
  | nil => intro s _; rfl
  | cons p ps ih =>
    intro s h
    cases s with
    | nil => simp [matchesAt] at h
    | cons c cs =>
      simp only [matchesAt, Bool.and_eq_true, beq_iff_eq] at h
      obtain ⟨h1, h2⟩ := h
      have hc := ih cs h2
      simp only [List.length_cons, List.cons_append, List.drop_succ_cons]
      rw [h1]
      exact congrArg (c :: ·) hc

theorem splitFirst_eq (pat : List Char) :
    ∀ s pre post, splitFirst pat s = some (pre, post) → s = pre ++ pat ++ post := by
  intro s
  induction s with
  | nil =>
    intro pre post h
    by_cases hm : matchesAt pat [] = true
    · simp only [splitFirst, if_pos hm, Option.some.injEq, Prod.mk.injEq] at h
      obtain ⟨rfl, rfl⟩ := h
      rw [matchesAt_nil pat hm]; rfl
    · simp only [splitFirst, if_neg hm] at h
      exact absurd h (by simp)
  | cons c cs ih =>
    intro pre post h
    by_cases hm : matchesAt pat (c :: cs) = true
    · simp only [splitFirst, if_pos hm, Option.some.injEq, Prod.mk.injEq] at h
      obtain ⟨rfl, rfl⟩ := h
      have := matchesAt_take_drop pat (c :: cs) hm
      simpa using this
    · simp only [splitFirst, if_neg hm] at h
      cases hsp : splitFirst pat cs with
      | none => rw [hsp] at h; exact absurd h (by simp)
      | some pr =>
        obtain ⟨pre', post'⟩ := pr
        rw [hsp] at h
        simp only [Option.some.injEq, Prod.mk.injEq] at h
        obtain ⟨rfl, rfl⟩ := h
        have := ih pre' post' hsp
        simp only [List.cons_append]
        exact congrArg (c :: ·) this

theorem containsTag_nil_pat (s : List Char) : containsTag [] s = true := by
  cases s with
  | nil => rfl
  | cons c cs => simp [containsTag, matchesAt_nil_pat]

theorem splitFirst_pre_no_tag (pat : List Char) (hp : pat ≠ []) :
    ∀ s pre post, splitFirst pat s = some (pre, post) → containsTag pat pre = false := by
  intro s
  induction s with
  | nil =>
    intro pre post h
    by_cases hm : matchesAt pat [] = true
    · exact absurd (matchesAt_nil pat hm) hp
    · simp only [splitFirst, if_neg hm] at h
      exact absurd h (by simp)
  | cons c cs ih =>
    intro pre post h
    by_cases hm : matchesAt pat (c :: cs) = true
    · simp only [splitFirst, if_pos hm, Option.some.injEq, Prod.mk.injEq] at h
      obtain ⟨rfl, rfl⟩ := h
      obtain ⟨p, ps⟩ := pat
      · exact absurd rfl hp
      · rfl
    · simp only [splitFirst, if_neg hm] at h
      cases hsp : splitFirst pat cs with
      | none => rw [hsp] at h; exact absurd h (by simp)
      | some pr =>
        obtain ⟨pre', post'⟩ := pr
        rw [hsp] at h
        simp only [Option.some.injEq, Prod.mk.injEq] at h
        obtain ⟨rfl, rfl⟩ := h
        have hrec := ih pre' post' hsp
        simp only [containsTag, Bool.or_eq_false_iff]
        refine ⟨?_, hrec⟩
        by_cases hm2 : matchesAt pat (c :: pre') = true
        · exfalso
          have hcs := splitFirst_eq pat cs pre' post' hsp
          have : matchesAt pat ((c :: pre') ++ (pat ++ post')) = true :=
            matchesAt_append pat (c :: pre') (pat ++ post') hm2
          rw [show (c :: pre') ++ (pat ++ post') = c :: cs by
            simp [hcs, List.append_assoc]] at this
          exact hm this
        · simpa using hm2

theorem splitFirst_none_of_not_contains (pat : List Char) :
    ∀ s, containsTag pat s = false → splitFirst pat s = none := by
  intro s
  induction s with
  | nil =>
    intro h
    simp only [containsTag] at h
    simp [splitFirst, h]
  | cons c cs ih =>
    intro h
    simp only [containsTag, Bool.or_eq_false_iff] at h
    obtain ⟨h1, h2⟩ := h
    simp only [splitFirst, h1, if_false, Bool.false_eq_true]
    rw [ih h2]

/-! ### Lemmas about the tag scanner -/

theorem scanThinkFuel_no_open (fuel : Nat) (s : List Char)
    (h : splitFirst openTag s = none) : scanThinkFuel fuel s = ([], s) := by
  cases fuel with
  | zero => rfl
  | succ f => simp [scanThinkFuel, h]

theorem scanThinkFuel_unclosed (fuel : Nat) (s pre rest : List Char)
    (h1 : splitFirst openTag s = some (pre, rest))
    (h2 : splitFirst closeTag rest = none) : scanThinkFuel fuel s = ([], s) := by
  cases fuel with
  | zero => rfl
  | succ f => simp [scanThinkFuel, h1, h2]

theorem scanThinkFuel_spans (fuel : Nat) :
    ∀ s : List Char,
      ∃ seps : List (List Char),
        seps.length = (scanThinkFuel fuel s).1.length + 1 ∧
        s = spanJoin seps ((scanThinkFuel fuel s).1.map String.toList) ∧
        (scanThinkFuel fuel s).2 = listJoin seps ∧
        ∀ t ∈ (scanThinkFuel fuel s).1, containsTag closeTag t.toList = false := by
  induction fuel with
  | zero =>
    intro s
    exact ⟨[s], rfl, rfl, by simp [scanThinkFuel, listJoin], by simp [scanThinkFuel]⟩
  | succ f ih =>
    intro s
    cases hopen : splitFirst openTag s with
    | none =>
      rw [scanThinkFuel_no_open _ s hopen]
      exact ⟨[s], rfl, rfl, by simp [listJoin], by simp⟩
    | some pr =>
      obtain ⟨pre, rest⟩ := pr
      cases hclose : splitFirst closeTag rest with
      | none =>
        rw [scanThinkFuel_unclosed _ s pre rest hopen hclose]
        exact ⟨[s], rfl, rfl, by simp [listJoin], by simp⟩
      | some pr2 =>
        obtain ⟨inner, post⟩ := pr2
        obtain ⟨seps', hlen, hjoin, hkeep, hmem⟩ := ih post
        have hs : s = pre ++ openTag ++ rest := splitFirst_eq _ s pre rest hopen
        have hrest : rest = inner ++ closeTag ++ post := splitFirst_eq _ rest inner post hclose
        have hscan : scanThinkFuel (Nat.succ f) s =
            (String.mk inner :: (scanThinkFuel f post).1,
             pre ++ (scanThinkFuel f post).2) := by
          simp [scanThinkFuel, hopen, hclose]
        rw [hscan]
        refine ⟨pre :: seps', by simp [hlen], ?_, ?_, ?_⟩
        · simp only [List.map_cons, spanJoin]
          have : (String.mk inner).toList = inner := rfl
          rw [this, hs, hrest, ← hjoin]
          simp [List.append_assoc]
        · simp only [listJoin, hkeep]
        · intro t ht
          simp only [List.mem_cons] at ht
          cases ht with
          | inl h =>
            subst h
            exact splitFirst_pre_no_tag closeTag (by decide) rest inner post hclose
          | inr h => exact hmem t h

/-! ### Substring occurrence is preserved by embedding into larger text -/

theorem containsTag_cons_of (pat : List Char) (c : Char) (cs : List Char)
    (h : containsTag pat cs = true) : containsTag pat (c :: cs) = true := by
  simp [containsTag, h]

theorem containsTag_append_right (pat t : List Char) :
    ∀ l, containsTag pat t = true → containsTag pat (l ++ t) = true := by
  intro l
  induction l with
  | nil => intro h; simpa using h
  | cons c cs ih => intro h; exact containsTag_cons_of _ c _ (ih h)

theorem containsTag_append_left (pat : List Char) :
    ∀ l t, containsTag pat l = true → containsTag pat (l ++ t) = true := by
  intro l
  induction l with
  | nil =>
    intro t h
    have hpat : pat = [] := matchesAt_nil pat (by simpa [containsTag] using h)
    subst hpat
    simpa using containsTag_nil_pat t
  | cons c cs ih =>
    intro t h
    simp only [containsTag, Bool.or_eq_true] at h
    cases h with
    | inl h =>
      have hm := matchesAt_append pat (c :: cs) t h
      simp only [List.cons_append] at hm
      simp [containsTag, hm]
    | inr h =>
      simp only [List.cons_append]
      exact containsTag_cons_of _ c _ (ih t h)

/-! ### Lemmas about whitespace trimming -/

theorem dropLeadingWs_suffix : ∀ s : List Char, ∃ a, s = a ++ dropLeadingWs s := by
  intro s
  induction s with
  | nil => exact ⟨[], rfl⟩
  | cons c cs ih =>
    by_cases hw : c.isWhitespace
    · obtain ⟨a, ha⟩ := ih
      refine ⟨c :: a, ?_⟩
      simp only [dropLeadingWs, if_pos hw, List.cons_append]
      exact congrArg (c :: ·) ha
    · exact ⟨[], by simp [dropLeadingWs, if_neg hw]⟩

theorem trimChars_infix (s : List Char) : ∃ a b, s = a ++ trimChars s ++ b := by
  obtain ⟨a, ha⟩ := dropLeadingWs_suffix s
  obtain ⟨b, hb⟩ := dropLeadingWs_suffix (dropLeadingWs s).reverse
  have hu : dropLeadingWs s = trimChars s ++ b.reverse := by
    have hr := congrArg List.reverse hb
    simpa [trimChars, List.reverse_append] using hr
  refine ⟨a, b.reverse, ?_⟩
  calc s = a ++ dropLeadingWs s := ha
    _ = a ++ (trimChars s ++ b.reverse) := by rw [hu]
    _ = a ++ trimChars s ++ b.reverse := (List.append_assoc a (trimChars s) b.reverse).symm

theorem containsTag_trimChars (pat s : List Char)
    (h : containsTag pat s = false) : containsTag pat (trimChars s) = false := by
  cases hc : containsTag pat (trimChars s) with
  | false => rfl
  | true =>
    exfalso
    obtain ⟨a, b, hab⟩ := trimChars_infix s
    have h1 := containsTag_append_left pat (trimChars s) b hc
    have h2 := containsTag_append_right pat (trimChars s ++ b) a h1
    rw [← List.append_assoc, ← hab, h] at h2
    exact Bool.false_ne_true h2

theorem dropLeadingWs_length : ∀ s : List Char, (dropLeadingWs s).length ≤ s.length := by
  intro s
  induction s with
  | nil => exact Nat.le_refl 0
  | cons c cs ih =>
    by_cases hw : c.isWhitespace
    · simp only [dropLeadingWs, if_pos hw]
      exact Nat.le_succ_of_le ih
    · simp [dropLeadingWs, if_neg hw]

theorem dropLeadingWs_idem (s : List Char) :
    dropLeadingWs (dropLeadingWs s) = dropLeadingWs s := by
  induction s with
  | nil => rfl
  | cons c cs ih =>
    by_cases hw : c.isWhitespace
    · simp only [dropLeadingWs, if_pos hw]; exact ih
    · simp [dropLeadingWs, if_neg hw]

theorem dropLeadingWs_head_not_ws (c : Char) (x : List Char)
    (h : dropLeadingWs (c :: x) = c :: x) : c.isWhitespace = false := by
  by_cases hw : c.isWhitespace
  · exfalso
    simp only [dropLeadingWs, if_pos hw] at h
    have hlen := dropLeadingWs_length x
    rw [h] at hlen
    simp only [List.length_cons] at hlen
    omega
  · simpa using hw

theorem dropLeadingWs_of_prefix (u t b : List Char)
    (hu : dropLeadingWs u = u) (ht : u = t ++ b) :
    dropLeadingWs t = t := by
  cases t with
  | nil => rfl
  | cons c t' =>
    have hcw : c.isWhitespace = false := by
      apply dropLeadingWs_head_not_ws c (t' ++ b)
      rw [ht] at hu
      simpa using hu
    simp [dropLeadingWs, hcw]

theorem trimChars_idem (s : List Char) : trimChars (trimChars s) = trimChars s := by
  have hvu : ∃ b, dropLeadingWs s = trimChars s ++ b := by
    obtain ⟨b, hb⟩ := dropLeadingWs_suffix (dropLeadingWs s).reverse
    refine ⟨b.reverse, ?_⟩
    have hr := congrArg List.reverse hb
    simpa [trimChars, List.reverse_append] using hr
  obtain ⟨b, hb⟩ := hvu
  have hdls_t : dropLeadingWs (trimChars s) = trimChars s :=
    dropLeadingWs_of_prefix (dropLeadingWs s) (trimChars s) b (dropLeadingWs_idem s) hb
  have hrev : dropLeadingWs (trimChars s).reverse = (trimChars s).reverse := by
    have hstep : (trimChars s).reverse = dropLeadingWs ((dropLeadingWs s).reverse) := by
      simp [trimChars]
    rw [hstep]
    exact dropLeadingWs_idem _
  show (dropLeadingWs ((dropLeadingWs (trimChars s)).reverse)).reverse = trimChars s
  rw [hdls_t, hrev, List.reverse_reverse]

/-! ### Small list helpers for the history proofs -/

theorem getLast_append_singleton {α : Type} (l : List α) (a : α) :
    (l ++ [a]).getLast? = some a := by
  induction l with
  | nil => rfl
  | cons x xs ih =>
    rw [List.cons_append]
    rw [← ih]
    cases h : xs ++ [a] with
    | nil => exact absurd h (by simp)
    | cons y ys => simp [h, List.getLast?_cons_cons]

theorem drop_append_of_le {α : Type} :
    ∀ (k : Nat) (l1 l2 : List α), k ≤ l1.length →
      (l1 ++ l2).drop k = l1.drop k ++ l2 := by
  intro k
  induction k with
  | zero => intro l1 l2 _; rfl
  | succ n ih =>
    intro l1 l2 h
    cases l1 with
    | nil => simp at h
    | cons x xs =>
      simp only [List.cons_append, List.drop_succ_cons]
      exact ih xs l2 (by simpa using h)

/-- The history produced by a successful `chat` call: the user and
assistant turns are appended and the result is truncated to the most
recent 10 messages when it grew beyond 10. -/
theorem chat_ok_hist (hist : List Message) (input reply : String) :
    (chat hist input (Except.ok reply)).1 =
      if hist.length + 2 > 10
      then (hist ++ [Message.mk "user" (create_reasoning_prompt input),
                     Message.mk "assistant" reply]).drop (hist.length + 2 - 10)
      else hist ++ [Message.mk "user" (create_reasoning_prompt input),
                    Message.mk "assistant" reply] := by
  simp only [chat, List.append_assoc, List.cons_append, List.nil_append,
    List.length_append, List.length_cons, List.length_nil]

/-! ### Claim theorems -/

/-- Claim C2 counterexample: on a span whose inner content carries
surrounding whitespace the parser returns the untrimmed inner text, so
the thinking elements are not the whitespace-trimmed inner contents. -/
theorem extract_thinking_not_trimmed :
    (extract_think_content "<think> a </think>x").1 = [" a "] ∧
    (extract_think_content "<think> a </think>x").1 ≠
      [String.mk (trimChars " a ".toList)] := ⟨by decide, by decide⟩

/-- Claim C2 (amended): every element of the thinking sequence is the
raw (untrimmed) inner content of one matched span, in document order:
the input decomposes into alternating unmatched segments and spans
openTag ++ inner ++ closeTag whose inner contents, in order, are exactly
the returned thinking list, and no inner content contains a closing
marker. -/
theorem extract_thinking_spans (text : String) :
    ∃ seps : List (List Char),
      seps.length = (extract_think_content text).1.length + 1 ∧
      text.toList = spanJoin seps ((extract_think_content text).1.map String.toList) ∧
      ∀ t ∈ (extract_think_content text).1, containsTag closeTag t.toList = false := by
  obtain ⟨seps, h1, h2, _, h4⟩ := scanThinkFuel_spans text.toList.length text.toList
  exact ⟨seps, h1, h2, h4⟩

/-- Claim C3 counterexample: on the two-span input the parser does not
return the answer with a space between the surrounding texts. -/
theorem extract_two_spans_counterexample :
    extract_think_content "<think>a</think>mid<think>b</think>end" ≠
      (["a", "b"], "mid end") := by decide

/-- Claim C3 (amended): the two-span input parses to thinking a, b and
answer midend: the matched spans are deleted and the surrounding texts
concatenate directly, with no separator inserted. -/
theorem extract_two_spans :
    extract_think_content "<think>a</think>mid<think>b</think>end" =
      (["a", "b"], "midend") := by decide

/-- Claim C4: when the remote call raises, chat catches the exception
(it is total, so nothing propagates), returns the empty thinking list
with the fixed apology text, and the history is exactly the prior
history with the just-appended user message: no assistant message is
appended and no truncation runs. -/
theorem chat_error_recovery (hist : List Message) (input err : String) :
    (chat hist input (Except.error err)).1 =
      hist ++ [Message.mk "user" (create_reasoning_prompt input)] ∧
    (chat hist input (Except.error err)).2 =
      ([], "I apologize, but I encountered an error. Please try again.") :=
  ⟨rfl, rfl⟩

/-- Claim C5 counterexample: five successful turns fill the history to
exactly 10 messages; a sixth call that fails appends an eleventh user
message and returns before the truncation step, so a completed chat call
can leave the history longer than 10. -/
theorem chat_length_cap_counterexample :
    ¬ ((chat (chat (chat (chat (chat (chat [] "a" (Except.ok "r")).1 "b"
        (Except.ok "r")).1 "c" (Except.ok "r")).1 "d" (Except.ok "r")).1 "e"
        (Except.ok "r")).1 "f" (Except.error "boom")).1.length ≤ 10) := by decide

/-- Claim C5 (amended): after every successful chat call the history has
length at most 10, and when the pre-truncation length exceeded 10
exactly the most recent 10 messages are retained in their original
relative order (oldest discarded first); a failed call skips truncation
and can leave the history one past the cap. -/
theorem chat_success_truncation (hist : List Message) (input reply : String) :
    ((chat hist input (Except.ok reply)).1).length ≤ 10 ∧
    (chat hist input (Except.ok reply)).1 =
      (if hist.length + 2 > 10
       then (hist ++ [Message.mk "user" (create_reasoning_prompt input),
                      Message.mk "assistant" reply]).drop (hist.length + 2 - 10)
       else hist ++ [Message.mk "user" (create_reasoning_prompt input),
                     Message.mk "assistant" reply]) := by
  refine ⟨?_, chat_ok_hist hist input reply⟩
  rw [chat_ok_hist hist input reply]
  by_cases hc : hist.length + 2 > 10
  · rw [if_pos hc, List.length_drop]
    simp only [List.length_append, List.length_cons, List.length_nil]
    omega
  · rw [if_neg hc]
    simp only [List.length_append, List.length_cons, List.length_nil]
    omega

/-- When the scanner leaves the text untouched, the parser returns no
thinking elements and the trimmed input. -/
theorem extract_eq_of_scan (text : String)
    (h : scanThinkFuel text.toList.length text.toList = ([], text.toList)) :
    extract_think_content text = ([], String.mk (trimChars text.toList)) := by
  show ((scanThinkFuel text.toList.length text.toList).1,
        String.mk (trimChars (scanThinkFuel text.toList.length text.toList).2)) =
       ([], String.mk (trimChars text.toList))
  rw [h]

/-- Claim C6: on input containing no opening tag marker the parser
returns an empty thinking sequence and the whitespace-trimmed input as
the answer; applying the parser to such an answer returns it unchanged
with empty thinking (idempotence on tag-free text). -/
theorem extract_no_tags (text : String)
    (h : containsTag openTag text.toList = false) :
    (extract_think_content text).1 = [] ∧
    (extract_think_content text).2 = String.mk (trimChars text.toList) ∧
    extract_think_content ((extract_think_content text).2) =
      ([], (extract_think_content text).2) := by
  have hnone := splitFirst_none_of_not_contains openTag text.toList h
  have h1 : extract_think_content text = ([], String.mk (trimChars text.toList)) :=
    extract_eq_of_scan text (scanThinkFuel_no_open text.toList.length text.toList hnone)
  refine ⟨by rw [h1], by rw [h1], ?_⟩
  rw [h1]
  have h2 : containsTag openTag (trimChars text.toList) = false :=
    containsTag_trimChars openTag text.toList h
  have hnone2 := splitFirst_none_of_not_contains openTag _ h2
  have hscan2 : scanThinkFuel (String.mk (trimChars text.toList)).toList.length
      (String.mk (trimChars text.toList)).toList =
      ([], (String.mk (trimChars text.toList)).toList) :=
    scanThinkFuel_no_open _ _ hnone2
  have h3 := extract_eq_of_scan (String.mk (trimChars text.toList)) hscan2
  rw [h3]
  have h4 : trimChars (String.mk (trimChars text.toList)).toList = trimChars text.toList := by
    show trimChars (trimChars text.toList) = trimChars text.toList
    exact trimChars_idem text.toList
  rw [h4]

/-- Witness for claim C6 at the concrete tag-free input. -/
theorem extract_no_tags_witness :
    (extract_think_content "Hello world").1 = [] ∧
    (extract_think_content "Hello world").2 =
      String.mk (trimChars "Hello world".toList) ∧
    extract_think_content ((extract_think_content "Hello world").2) =
      ([], (extract_think_content "Hello world").2) :=
  extract_no_tags "Hello world" (by decide)

/-- Claim C7: an opening marker with no closing marker after it is not
matched: the parser returns no thinking element for it and keeps the
whole input verbatim in the answer, apart from the final whitespace trim
of the whole answer; being a total function, it raises no error. -/
theorem extract_unclosed_tag (text : String) (pre rest : List Char)
    (hopen : splitFirst openTag text.toList = some (pre, rest))
    (hclose : containsTag closeTag rest = false) :
    extract_think_content text = ([], String.mk (trimChars text.toList)) := by
  have hnone := splitFirst_none_of_not_contains closeTag rest hclose
  exact extract_eq_of_scan text
    (scanThinkFuel_unclosed text.toList.length text.toList pre rest hopen hnone)

/-- Witness for claim C7 at a concrete unclosed-tag input. -/
theorem extract_unclosed_tag_witness :
    extract_think_content "<think>never closed" =
      ([], String.mk (trimChars "<think>never closed".toList)) :=
  extract_unclosed_tag "<think>never closed" [] "never closed".toList
    (by decide) (by decide)

/-- Claim C8: on a successful call the assistant message appended to the
history carries the raw unparsed reply exactly as received (tags
included, not the parsed answer): the last history entry is the
assistant role with the full reply text. -/
theorem chat_appends_raw_reply (hist : List Message) (input reply : String) :
    ((chat hist input (Except.ok reply)).1).getLast? =
      some (Message.mk "assistant" reply) := by
  rw [chat_ok_hist hist input reply]
  by_cases hc : hist.length + 2 > 10
  · rw [if_pos hc]
    have hsplit : hist ++ [Message.mk "user" (create_reasoning_prompt input),
        Message.mk "assistant" reply] =
        (hist ++ [Message.mk "user" (create_reasoning_prompt input)]) ++
          [Message.mk "assistant" reply] := by simp
    rw [hsplit, drop_append_of_le]
    · exact getLast_append_singleton _ _
    · simp only [List.length_append, List.length_cons, List.length_nil]
      omega
  · rw [if_neg hc]
    have hsplit : hist ++ [Message.mk "user" (create_reasoning_prompt input),
        Message.mk "assistant" reply] =
        (hist ++ [Message.mk "user" (create_reasoning_prompt input)]) ++
          [Message.mk "assistant" reply] := by simp
    rw [hsplit]
    exact getLast_append_singleton _ _

/-- Claim C9: two sequential successful chat calls on a fresh session
leave exactly four messages alternating user, assistant, user,
assistant (no truncation triggers at length four). -/
theorem chat_two_turns (i1 r1 i2 r2 : String) :
    (chat (chat [] i1 (Except.ok r1)).1 i2 (Except.ok r2)).1 =
      [Message.mk "user" (create_reasoning_prompt i1),
       Message.mk "assistant" r1,
       Message.mk "user" (create_reasoning_prompt i2),
       Message.mk "assistant" r2] ∧
    ((chat (chat [] i1 (Except.ok r1)).1 i2 (Except.ok r2)).1).map Message.role =
      ["user", "assistant", "user", "assistant"] :=
  ⟨rfl, rfl⟩

/-- Claim C10: the /clear branch of the main loop touches no field of
the session: it replaces the terminal contents with the welcome banner
and leaves the conversation history exactly unchanged. -/
theorem clear_preserves_history (st : AppState) (remote : Except String String) :
    (main_loop_step st "/clear" remote).conversation_history =
      st.conversation_history := rfl

/-- Claim C1 (code bug witness): entering /clear with a nonempty history
leaves the history as it was, contradicting the documented reset
behavior (the in-app help text says /clear clears the conversation). -/
theorem clear_does_not_reset_history :
    (main_loop_step
      (AppState.mk [Message.mk "user" "hi"] ["old screen"])
      "/clear" (Except.ok "r")).conversation_history =
      [Message.mk "user" "hi"] ∧
    [Message.mk "user" "hi"] ≠ ([] : List Message) := ⟨rfl, by decide⟩
